import Mathlib

/-!
A verification development for the embedding/indexing/retrieval core of the
mcp-rag-server repository (a TypeScript MCP server providing RAG support).

The definitions below are shallow embeddings of the repository's source:
  * the chunkers of `src/ragmanager.ts` (`chunkText`, lines 382-434) and of
    the simple variant (`chunkText`, sliding window only);
  * the retry/queue logic of `RAGManager.fetchEmbedding` and
    `RAGManager.isRetryableError` (`src/ragmanager.ts`, lines 95-228);
  * the query-result formatting of `RAGManager.deduplicateResults` and
    `RAGManager.queryDocuments` (`src/ragmanager.ts`, lines 441-521);
  * the FAISS-backed vector store (`FaissVectorStore` of the sqlite-vec
    variant: `initialize`, `addDocuments`, `similaritySearch`,
    `removeDocument`, `removeAllDocuments`, `rebuildIndex`, `saveIndex`);
  * the LangChain-backed vector store (`src/langchainVectorStore.ts`) and the
    `RAGManager` entry points that guard on an uninitialized store.

JavaScript numbers are modelled by `Nat`/`ℚ` (the claims under study do not
depend on floating-point rounding); `Math.sqrt` is modelled by an exact
floor square root (`ratSqrt`), which agrees with it on the perfect squares
used in the concrete scenarios.  JavaScript `Map`s are modelled as insertion-ordered association
lists with JavaScript `Map.set`/`Map.delete` semantics.  Asynchronous calls
that can fail (the remote embedder) are modelled as `Option`/`Except`-valued
functions.
-/

namespace Spec2Proof

/-! ## Association lists: the model of a JavaScript `Map` -/

/-- `Map.get`: the value of the first entry with the given key. -/
def alistGet {α β : Type} [DecidableEq α] (k : α) : List (α × β) → Option β
  | [] => none
  | (k', v) :: t => if k' = k then some v else alistGet k t

/-- `Map.has`. -/
def alistHasKey {α β : Type} [DecidableEq α] (k : α) (m : List (α × β)) : Bool :=
  (alistGet k m).isSome

/-- `Map.set`: replace the first entry with the key in place, else append. -/
def alistSet {α β : Type} [DecidableEq α] (k : α) (v : β) : List (α × β) → List (α × β)
  | [] => [(k, v)]
  | (k', v') :: t => if k' = k then (k, v) :: t else (k', v') :: alistSet k v t

/-- `Map.delete`: remove the first entry with the key. -/
def alistRemove {α β : Type} [DecidableEq α] (k : α) : List (α × β) → List (α × β)
  | [] => []
  | (k', v') :: t => if k' = k then t else (k', v') :: alistRemove k t

/-- `Map.keys` in iteration (insertion) order. -/
def alistKeys {α β : Type} (m : List (α × β)) : List α := m.map Prod.fst

/-- Whether a key list is duplicate-free (holds for every map built by
`Map.set`). -/
def nodupKeys : List String → Bool
  | [] => true
  | k :: t => !(t.contains k) && nodupKeys t

/-! ## Characters and strings: the JavaScript predicates used by the source -/

/-- JavaScript's `\s` restricted to the ASCII range (space, tab, newline,
carriage return, vertical tab, form feed); the sources under study only
exercise these. -/
def jsWhitespace (c : Char) : Bool :=
  c == ' ' || c == '\t' || c == '\n' || c == '\r' || c == Char.ofNat 11 || c == Char.ofNat 12

/-- JavaScript's `\w`: `[A-Za-z0-9_]`. -/
def jsWordChar (c : Char) : Bool := c.isAlphanum || c == '_'

/-- Does the list start with the given pattern? -/
def startsWithL : List Char → List Char → Bool
  | _, [] => true
  | [], _ :: _ => false
  | c :: t, p :: q => c == p && startsWithL t q

/-- `String.prototype.includes`, on character lists. -/
def hasSub : List Char → List Char → Bool
  | [], sub => sub.isEmpty
  | c :: t, sub => startsWithL (c :: t) sub || hasSub t sub

/-- `String.prototype.includes`, on strings. -/
def strContainsSub (s pat : String) : Bool := hasSub s.toList pat.toList

/-- The longest prefix satisfying `p`: its length and the rest. -/
def spanCount (p : Char → Bool) : List Char → Nat × List Char
  | [] => (0, [])
  | c :: t => if p c then let (n, r) := spanCount p t; (n + 1, r) else (0, c :: t)

/-- Strip an expected literal pattern from the front of the list. -/
def stripLit : List Char → List Char → Option (List Char)
  | s, [] => some s
  | [], _ :: _ => none
  | c :: t, p :: q => if c == p then stripLit t q else none

/-- Does the chunk survive `chunk.trim().length > 0`? -/
def hasNonWs (c : List Char) : Bool := c.any (fun ch => !(jsWhitespace ch))

/-- `String.prototype.trim` on character lists. -/
def trimL (l : List Char) : List Char :=
  ((l.dropWhile jsWhitespace).reverse.dropWhile jsWhitespace).reverse

/-- `String.prototype.trim`. -/
def jsTrim (s : String) : String := String.mk (trimL s.toList)

/-- `String.prototype.toLowerCase`, ASCII range (the strings the source
matches against are all ASCII). -/
def asciiLower (c : Char) : Char :=
  if 'A' ≤ c && c ≤ 'Z' then Char.ofNat (c.toNat + 32) else c

/-- `String.prototype.toLowerCase`. -/
def jsToLower (s : String) : String := String.mk (s.toList.map asciiLower)

/-- The floor square root on naturals, by downward search (executable in the
kernel; only small concrete numbers are ever taken through it). -/
def natSqrtBelow (n : Nat) : Nat → Nat
  | 0 => 0
  | k + 1 => if (k + 1) * (k + 1) ≤ n then k + 1 else natSqrtBelow n k

/-- The model of `Math.sqrt` on the nonnegative rationals the source feeds
it: the floor square roots of numerator and denominator (exact on the perfect
squares every concrete scenario uses, e.g. the norm of a unit vector). -/
def ratSqrt (q : ℚ) : ℚ :=
  (natSqrtBelow q.num.toNat q.num.toNat : ℚ) / (natSqrtBelow q.den q.den : ℚ)

/-! ## The chunkers

`text.slice(i, i + size)` of JavaScript is `(text.drop i).take size`;
`text.slice(a, b)` is `(text.drop a).take (b - a)`. -/

/-- `text.slice(a, b)`. -/
def sliceFT (text : List Char) (a b : Nat) : List Char := (text.drop a).take (b - a)

/-- `text.slice(i, i + size)`. -/
def sliceLen (text : List Char) (i size : Nat) : List Char := (text.drop i).take size

/-- The loop `while (i < text.length) { chunks.push(text.slice(i, i + size)); i += step }`.
The fuel argument only bounds the iteration count: with `step ≥ 1` the loop
makes at most `text.length` iterations, so fuel `text.length` never cuts it
short (with `step = 0` the JavaScript loop diverges; callers are required to
keep `overlap < chunkSize`). -/
def chunkLoop (text : List Char) (size step : Nat) : Nat → Nat → List (List Char)
  | 0, _ => []
  | fuel + 1, i =>
    if i < text.length then sliceLen text i size :: chunkLoop text size step fuel (i + step)
    else []

/-- The sliding-window chunker body shared by both `chunkText` variants. -/
def slidingChunks (text : List Char) (size step : Nat) : List (List Char) :=
  chunkLoop text size step text.length 0

namespace P3

/-- `RAGManager.chunkText` of the simple variant: pure sliding window with
step `chunkSize - overlap`. -/
def chunkText (text : List Char) (chunkSize overlap : Nat) : List (List Char) :=
  slidingChunks text chunkSize (chunkSize - overlap)

end P3

/-- One match of `/function\s+\w+\([^)]*\)\s*\x7b/` anchored at the head of the
list, maximal-munch (equivalent to the regex here because each repeated class
is disjoint from the character that must follow it); returns the match
length. -/
def matchFunAt (s : List Char) : Option Nat :=
  match stripLit s ("function".toList) with
  | none => none
  | some r1 =>
    let (nWs, r2) := spanCount jsWhitespace r1
    if nWs = 0 then none else
    let (nW, r3) := spanCount jsWordChar r2
    if nW = 0 then none else
    match r3 with
    | '(' :: r4 =>
      let (nArg, r5) := spanCount (fun c => !(c == ')')) r4
      (match r5 with
       | ')' :: r6 =>
         let (nWs2, r7) := spanCount jsWhitespace r6
         (match r7 with
          | '{' :: _ => some (8 + nWs + nW + 1 + nArg + 1 + nWs2 + 1)
          | _ => none)
       | _ => none)
    | _ => none

/-- `matchAll`: the start positions of successive non-overlapping matches,
scanning left to right.  Fuel bounds the scan by the text length (each step
consumes at least one character, and a match is at least 8 long). -/
def scanMatches : Nat → List Char → Nat → List Nat
  | 0, _, _ => []
  | _, [], _ => []
  | fuel + 1, c :: t, pos =>
    match matchFunAt (c :: t) with
    | some len => pos :: scanMatches fuel ((c :: t).drop (max len 1)) (pos + max len 1)
    | none => scanMatches fuel t (pos + 1)

/-- The fragment loop of the code branch: `for (match of matches) { if
(match.index > lastEnd) { chunks.push(text.slice(lastEnd, match.index));
lastEnd = match.index } }` followed by the tail push. -/
def codeSegs (text : List Char) : List Nat → Nat → List (List Char)
  | [], lastEnd => if lastEnd < text.length then [sliceFT text lastEnd text.length] else []
  | m :: ms, lastEnd =>
    if lastEnd < m then sliceFT text lastEnd m :: codeSegs text ms m
    else codeSegs text ms lastEnd

/-- The code-like branch of `RAGManager.chunkText`. -/
def codeChunks (text : List Char) : List (List Char) :=
  (codeSegs text (scanMatches text.length text 0) 0).filter hasNonWs

/-- Does `#+\s` match here (the lookahead of `/\n(?=#+\s)/`)? -/
def isHeadingAhead (l : List Char) : Bool :=
  let (n, r) := spanCount (fun c => c == '#') l
  decide (0 < n) && (match r with | c :: _ => jsWhitespace c | [] => false)

/-- `text.split(/\n(?=#+\s)/)`: the separator `\n` is consumed, the lookahead
is not. -/
def mdSplitAux : List Char → List Char → List (List Char)
  | [], acc => [acc.reverse]
  | c :: rest, acc =>
    if c == '\n' && isHeadingAhead rest then acc.reverse :: mdSplitAux rest []
    else mdSplitAux rest (c :: acc)

/-- The markdown-like branch of `RAGManager.chunkText`. -/
def mdChunks (text : List Char) : List (List Char) :=
  (mdSplitAux text []).filter hasNonWs

namespace RagTs

/-- `RAGManager.chunkText` of `src/ragmanager.ts` (lines 382-434).  In the
fallback branch the source's `dynamicChunkSize` equals `chunkSize` (the
code/markdown adjustments are only computed on inputs that the two earlier
branches already diverted), so the sliding window runs with size `chunkSize`
and step `chunkSize - overlap`. -/
def chunkText (text : List Char) (chunkSize overlap : Nat) : List (List Char) :=
  let isCode := text.contains '{' && text.contains '}'
  let isMarkdown := hasSub text ("# ".toList) || hasSub text ("## ".toList)
  if isCode then codeChunks text
  else if isMarkdown then mdChunks text
  else slidingChunks text chunkSize (chunkSize - overlap)

end RagTs

example : P3.chunkText ("abcd".toList) 5 3 = ["abcd".toList, "cd".toList] := by decide
example : RagTs.chunkText ("abcd".toList) 5 3 = ["abcd".toList, "cd".toList] := by decide
example : RagTs.chunkText ("a\n# b".toList) 5 3 = ["a".toList, "# b".toList] := by decide

/-! ## What the sliding window computes -/

/-- Ceiling division on naturals. -/
def ceilDiv (a b : Nat) : Nat := (a + b - 1) / b

lemma ceilDiv_zero_left (b : Nat) : ceilDiv 0 b = 0 := by
  unfold ceilDiv
  rcases Nat.eq_zero_or_pos b with hb | hb
  · simp [hb]
  · exact Nat.div_eq_of_lt (by omega)

lemma ceilDiv_pos_step (a b : Nat) (ha : 0 < a) (hb : 0 < b) :
    ceilDiv a b = ceilDiv (a - b) b + 1 := by
  unfold ceilDiv
  rcases Nat.lt_or_ge b a with h | h
  · have h1 : a + b - 1 = (a - b + b - 1) + b := by omega
    rw [h1, Nat.add_div_right _ hb]
  · have h0 : a - b = 0 := by omega
    have h1 : a + b - 1 = (a - 1) + b := by omega
    have h2 : (a - 1) / b = 0 := Nat.div_eq_of_lt (by omega)
    have h3 : (0 + b - 1) / b = 0 := Nat.div_eq_of_lt (by omega)
    rw [h0, h1, Nat.add_div_right _ hb, h2, h3]

lemma chunkLoop_succ (text : List Char) (size step f i : Nat) :
    chunkLoop text size step (f + 1) i =
      if i < text.length then sliceLen text i size :: chunkLoop text size step f (i + step)
      else [] := rfl

lemma chunkLoop_eq (text : List Char) (size step : Nat) (hstep : 0 < step) :
    ∀ fuel i, text.length - i ≤ fuel * step →
      chunkLoop text size step fuel i =
        (List.range (ceilDiv (text.length - i) step)).map
          (fun t => sliceLen text (i + t * step) size) := by
  intro fuel
  induction fuel with
  | zero =>
    intro i h
    have h0 : text.length - i = 0 := by omega
    rw [h0, ceilDiv_zero_left]
    rfl
  | succ f ih =>
    intro i h
    by_cases hi : i < text.length
    · have hpos : 0 < text.length - i := by omega
      rw [chunkLoop_succ, if_pos hi]
      rw [ceilDiv_pos_step _ _ hpos hstep, List.range_succ_eq_map, List.map_cons,
        List.map_map]
      have hfuel : text.length - (i + step) ≤ f * step := by
        have hm : (f + 1) * step = f * step + step := by ring
        omega
      rw [ih (i + step) hfuel]
      have hsub : text.length - i - step = text.length - (i + step) := by omega
      rw [hsub]
      have hfun : (fun t => sliceLen text (i + step + t * step) size) =
          ((fun t => sliceLen text (i + t * step) size) ∘ Nat.succ) := by
        funext t
        show sliceLen text (i + step + t * step) size = sliceLen text (i + (t + 1) * step) size
        congr 1
        ring
      rw [hfun]
      congr 1
      congr 1
      ring
    · have h0 : text.length - i = 0 := by omega
      rw [chunkLoop_succ, if_neg hi, h0, ceilDiv_zero_left]
      rfl

theorem slidingChunks_eq (text : List Char) (size step : Nat) (hstep : 0 < step) :
    slidingChunks text size step =
      (List.range (ceilDiv text.length step)).map (fun t => sliceLen text (t * step) size) := by
  unfold slidingChunks
  have hfuel : text.length - 0 ≤ text.length * step := by
    have := Nat.le_mul_of_pos_right text.length hstep
    omega
  rw [chunkLoop_eq text size step hstep text.length 0 hfuel]
  simp

theorem slidingChunks_length (text : List Char) (size step : Nat) (hstep : 0 < step) :
    (slidingChunks text size step).length = ceilDiv text.length step := by
  rw [slidingChunks_eq text size step hstep]
  simp

/-! ## The embedding client: `RAGManager.isRetryableError` and the retry logic
of `RAGManager.fetchEmbedding` (`src/ragmanager.ts`, lines 95-228) -/

/-- `RAGManager.isRetryableError`: errors are modelled by their message
strings (the source only inspects `error.message.toLowerCase()`). -/
def isRetryableError (msg : String) : Bool :=
  let m := jsToLower msg
  strContainsSub m "network" || strContainsSub m "eof" || strContainsSub m "timeout" ||
    strContainsSub m "econnreset" || strContainsSub m "econnrefused" ||
    strContainsSub m "socket hang up" || strContainsSub m "network error" ||
    strContainsSub m "500" || strContainsSub m "502" || strContainsSub m "503" ||
    strContainsSub m "504" ||
    strContainsSub m "rate limit" || strContainsSub m "too many requests" ||
    strContainsSub m "429"

deriving instance DecidableEq for Except

/-- The retry recursion of `fetchEmbedding` (lines 114-166), taken by itself:
`call n` is the outcome of the n-th fetch attempt; `retries`/`delay` are the
parameters (defaults 3 and 1000); the recursive call passes `retries - 1` and
`delay * 1.5`.  Returns the surfaced outcome, the list of waits performed
(ms), and the number of fetch attempts made.  This captures the data flow of
the retry branch; the queue wiring around it is modelled separately by
`QueueEv` below. -/
def fetchEmbeddingTries (call : Nat → Except String (List ℚ)) :
    Nat → ℚ → Nat → Except String (List ℚ) × List ℚ × Nat
  | 0, _, n =>
    (match call n with
     | .ok v => (.ok v, [], 1)
     | .error e => (.error e, [], 1))
  | r + 1, delay, n =>
    match call n with
    | .ok v => (.ok v, [], 1)
    | .error e =>
      if isRetryableError e then
        let res := fetchEmbeddingTries call r (delay * (3 / 2 : ℚ)) (n + 1)
        (res.1, delay :: res.2.1, res.2.2 + 1)
      else (.error e, [], 1)

/-- The serial queue discipline of `fetchEmbedding` (lines 100-181), for one
logical request whose every fetch attempt fails with a retryable error and
whose initial `retries` is the default 3.  Each invocation appends its task
onto `this.embeddingQueue`; job 0 is the original call's task and job `i + 1`
is the task appended by job i's re-entrant retry call.  Read off the source:

  * `QueueEv true i` — job i starts running;
  * `QueueEv false i` — the queue chain through job i settles;
  * job 0 starts unconditionally (the queue is initially resolved);
  * job `i + 1` was appended behind the chain containing job i, so it starts
    only once that chain settles;
  * for `i < 3`, job i `await`s the promise of its re-entrant call, which
    only job `i + 1` can resolve, so job i's task (and with it the chain
    through job i) settles only if job i ran and job `i + 1` settled;
  * job 3 has `retries = 0`, rejects at once, and the trailing `.catch`
    settles the chain through it. -/
inductive QueueEv : Bool → Nat → Prop where
  | first : QueueEv true 0
  | chained (i : Nat) : QueueEv false i → QueueEv true (i + 1)
  | awaited (i : Nat) : i < 3 → QueueEv true i → QueueEv false (i + 1) → QueueEv false i
  | exhausted : QueueEv true 3 → QueueEv false 3

/-- Job i of the queue starts. -/
def queueJobStarted (i : Nat) : Prop := QueueEv true i

/-- The queue chain through job i settles. -/
def queueJobSettled (i : Nat) : Prop := QueueEv false i

lemma queueEv_elim (b : Bool) (i : Nat) (h : QueueEv b i) : b = true ∧ i = 0 := by
  induction h with
  | first => exact ⟨rfl, rfl⟩
  | chained i hs ih => exact absurd ih.1 (by simp)
  | awaited i hlt hst hnext ih1 ih2 => exact absurd ih2.1 (by simp)
  | exhausted hst ih => exact absurd ih.2 (by omega)

/-! ## Documents and query-result formatting
(`RAGManager.deduplicateResults`, lines 441-457, and the formatting tail of
`RAGManager.queryDocuments`, lines 508-521) -/

/-- The `Document` of `src/types.ts`: `path`, `content`, and the metadata
fields the core reads (`source`, and the query-time `score`). -/
structure Document where
  path : String
  content : String
  source : String
  score : Option ℚ
deriving Repr, DecidableEq

/-- Does the list end with the given pattern? -/
def endsWithL (l pat : List Char) : Bool := startsWithL l.reverse pat.reverse

/-- `source.replace(/\.md$/, "")`. -/
def stripMdSuffix (s : String) : String :=
  let l := s.toList
  if endsWithL l ('.' :: 'm' :: 'd' :: []) then String.mk (l.take (l.length - 3)) else s

/-- `.replace(/\s+/g, "_")`: every maximal whitespace run becomes one
underscore.  The Bool state records whether the scan is inside a run. -/
def collapseWsAux : Bool → List Char → List Char
  | _, [] => []
  | inRun, c :: t =>
    if jsWhitespace c then
      (if inRun then collapseWsAux true t else '_' :: collapseWsAux true t)
    else c :: collapseWsAux false t

/-- Whitespace runs collapsed to single underscores. -/
def collapseWs (l : List Char) : List Char := collapseWsAux false l

/-- The `docName` of `queryDocuments`:
`res.metadata.source.replace(/\.md$/, "").replace(/\s+/g, "_")`. -/
def slugOf (source : String) : String := String.mk (collapseWs (stripMdSuffix source).toList)

/-- One formatted chunk of `queryDocuments`: the template literal
`[DOCUMENT:docName]\n(content trimmed)\n[/DOCUMENT:docName]`. -/
def wrapDoc (d : Document) : String :=
  let docName := slugOf d.source
  "[DOCUMENT:" ++ docName ++ "]\n" ++ jsTrim d.content ++ "\n[/DOCUMENT:" ++ docName ++ "]"

/-- The seen-set loop of `RAGManager.deduplicateResults`. -/
def dedupAux (seen : List String) : List Document → List Document
  | [] => []
  | d :: t =>
    if seen.contains (jsTrim d.content) then dedupAux seen t
    else d :: dedupAux (jsTrim d.content :: seen) t

/-- `RAGManager.deduplicateResults`. -/
def deduplicateResults (rs : List Document) : List Document := dedupAux [] rs

/-- The formatting tail of `RAGManager.queryDocuments`, applied to the
retrieved results: wrap each surviving chunk and join with blank lines. -/
def formatQueryResults (rs : List Document) : String :=
  String.intercalate "\n\n" ((deduplicateResults rs).map wrapDoc)

/-- Modelled from the spec's words (claim C7): remove every chunk whose
trimmed content equals that of an earlier chunk — first occurrence wins,
order preserved — written as a direct filtering recursion. -/
def specDedup : List Document → List Document
  | [] => []
  | d :: t =>
    d :: specDedup (t.filter (fun e => !(jsTrim e.content == jsTrim d.content)))
termination_by l => l.length
decreasing_by
  have := List.length_filter_le (fun e => !(jsTrim e.content == jsTrim d.content)) t
  simp only [List.length_cons]
  omega

/-- Modelled from the spec's words (claim C7): the chunk wrapped with its raw
content between the newlines, `[DOCUMENT:slug]\ncontent\n[/DOCUMENT:slug]`. -/
def specWrapRaw (d : Document) : String :=
  let slug := slugOf d.source
  "[DOCUMENT:" ++ slug ++ "]\n" ++ d.content ++ "\n[/DOCUMENT:" ++ slug ++ "]"

/-- Claim C7's described result string, as stated (raw content). -/
def claimedQueryFormat (rs : List Document) : String :=
  String.intercalate "\n\n" ((specDedup rs).map specWrapRaw)

/-- The amended wrapper: the surviving chunk's trimmed content between the
newlines. -/
def specWrapTrimmed (d : Document) : String :=
  let slug := slugOf d.source
  "[DOCUMENT:" ++ slug ++ "]\n" ++ jsTrim d.content ++ "\n[/DOCUMENT:" ++ slug ++ "]"

lemma filter_filter_eq {α : Type} (p q : α → Bool) (l : List α) :
    (l.filter q).filter p = l.filter (fun a => p a && q a) := by
  induction l with
  | nil => rfl
  | cons a t ih =>
    by_cases hq : q a <;> by_cases hp : p a <;> simp [List.filter_cons, hq, hp, ih]

lemma filter_ext {α : Type} (p q : α → Bool) (l : List α) (h : ∀ a, p a = q a) :
    l.filter p = l.filter q := by
  induction l with
  | nil => rfl
  | cons a t ih => simp only [List.filter_cons, h a, ih]

lemma dedupAux_cons (seen : List String) (d : Document) (t : List Document) :
    dedupAux seen (d :: t) =
      if seen.contains (jsTrim d.content) then dedupAux seen t
      else d :: dedupAux (jsTrim d.content :: seen) t := rfl

lemma contains_cons_eq (k a : String) (l : List String) :
    (a :: l).contains k = ((k == a) || l.contains k) := by
  cases h : k == a <;>
    simp only [List.contains, List.elem, h, Bool.false_or, Bool.true_or]

lemma dedupAux_eq_specDedup :
    ∀ (rs : List Document) (seen : List String),
      dedupAux seen rs =
        specDedup (rs.filter (fun d => !(seen.contains (jsTrim d.content)))) := by
  intro rs
  induction rs with
  | nil => intro seen; simp [dedupAux, specDedup]
  | cons d t ih =>
    intro seen
    cases hb : seen.contains (jsTrim d.content) with
    | true =>
      have h1 : dedupAux seen (d :: t) = dedupAux seen t := by
        rw [dedupAux_cons, hb]; simp
      have h2 : (d :: t).filter (fun e => !(seen.contains (jsTrim e.content))) =
          t.filter (fun e => !(seen.contains (jsTrim e.content))) := by
        rw [List.filter_cons, hb]; simp
      rw [h1, h2, ih seen]
    | false =>
      have h1 : dedupAux seen (d :: t) = d :: dedupAux (jsTrim d.content :: seen) t := by
        rw [dedupAux_cons, hb]; simp
      have h2 : (d :: t).filter (fun e => !(seen.contains (jsTrim e.content))) =
          d :: t.filter (fun e => !(seen.contains (jsTrim e.content))) := by
        rw [List.filter_cons, hb]; simp
      rw [h1, h2, ih (jsTrim d.content :: seen), specDedup]
      congr 1
      apply congrArg specDedup
      rw [filter_filter_eq]
      apply filter_ext
      intro e
      rw [contains_cons_eq]
      cases h3 : (jsTrim e.content == jsTrim d.content) <;>
        cases h4 : seen.contains (jsTrim e.content) <;>
          simp [h3, h4]

/-! ## The FAISS-backed vector store

`FaissVectorStore` of the sqlite-vec variant: in-memory state `documents`
(a `Map` path → Document), `vectors` (index-aligned array), the two position
maps, the FAISS index (`null` until `initialize`, modelled by `Option`; its
content is the list of vectors added to it, `ntotal` its length), the
configured dimension, the `initialized` flag, and the SQLite `vector_store`
table (modelled as its list of rows, primary key `path`).  The debounced
`saveIndex` is scheduled, not run, by the mutating operations, so they leave
`db` untouched; `saveIndex` itself is modelled as the function from the store
to the new table content. -/

/-- One row of the `vector_store` table (`JSON.stringify`/`vec_to_blob`
round-trips are modelled structurally). -/
structure DbRow where
  path : String
  doc : Document
  vec : List ℚ
deriving Repr, DecidableEq

/-- `SELECT ... WHERE path = ?`: the first row with the given key. -/
def dbGet (p : String) : List DbRow → Option DbRow
  | [] => none
  | r :: t => if r.path = p then some r else dbGet p t

/-- `INSERT OR REPLACE`: replace the row with the same primary key, else
append (row order is immaterial to every lookup made of the table). -/
def dbSet (r : DbRow) : List DbRow → List DbRow
  | [] => [r]
  | r' :: t => if r'.path = r.path then r :: t else r' :: dbSet r t

/-- The in-memory state of `FaissVectorStore` plus its backing table. -/
structure FaissStore where
  documents : List (String × Document)
  vectors : List (List ℚ)
  pathToIndexMap : List (String × Nat)
  indexToPathMap : List (Nat × String)
  index : Option (List (List ℚ))
  dimension : Nat
  initialized : Bool
  db : List DbRow
deriving Repr, DecidableEq

/-- `this.index?.ntotal() ?? 0`. -/
def faissNtotal (s : FaissStore) : Nat :=
  match s.index with
  | none => 0
  | some l => l.length

/-- `validateAndNormalizeEmbedding`: wrong length or norm below `1e-10` is
rejected; otherwise each component is divided by the norm.  `Math.sqrt` is
modelled by `Rat.sqrt` (exact on the perfect squares the scenarios use). -/
def validateAndNormalizeEmbedding (dimension : Nat) (embedding : List ℚ) : Option (List ℚ) :=
  if embedding.length ≠ dimension then none
  else
    let norm := ratSqrt ((embedding.map (fun v => v * v)).sum)
    if norm < (1 : ℚ) / 10 ^ 10 then none
    else some (embedding.map (fun v => v / norm))

/-- `prepareDocuments`: skip documents with a falsy path or blank content,
embed the rest (an embedder failure skips the document), validate and
normalize; order preserved. -/
def prepareDocuments (emb : String → Option (List ℚ)) (dimension : Nat) :
    List Document → List (Document × List ℚ)
  | [] => []
  | d :: t =>
    if d.path = "" ∨ jsTrim d.content = "" then prepareDocuments emb dimension t
    else
      match emb d.content with
      | none => prepareDocuments emb dimension t
      | some raw =>
        match validateAndNormalizeEmbedding dimension raw with
        | none => prepareDocuments emb dimension t
        | some nrm => (d, nrm) :: prepareDocuments emb dimension t

/-- `restoreIndexFromRows`: walk the persisted rows, skipping rows whose
parsed document is inconsistent with the row key or whose vector has the
wrong length; surviving rows are `Map.set` into the existing maps at
positions 0, 1, ... and their vectors collected in order. -/
def restoreRows (dimension : Nat) :
    List DbRow → List (String × Document) → List (String × Nat) → List (Nat × String) → Nat →
      List (String × Document) × List (List ℚ) × List (String × Nat) × List (Nat × String)
  | [], docs, p2i, i2p, _ => (docs, [], p2i, i2p)
  | r :: t, docs, p2i, i2p, cur =>
    if r.doc.path = "" ∨ r.doc.path ≠ r.path then restoreRows dimension t docs p2i i2p cur
    else if r.vec.length ≠ dimension then restoreRows dimension t docs p2i i2p cur
    else
      let rest := restoreRows dimension t (alistSet r.doc.path r.doc docs)
        (alistSet r.doc.path cur p2i) (alistSet cur r.doc.path i2p) (cur + 1)
      (rest.1, r.vec :: rest.2.1, rest.2.2.1, rest.2.2.2)

/-- `initialize`: idempotent; creates a fresh flat index, loads the persisted
rows, replaces `vectors` by the restored ones and marks the store
initialized.  (The backend-unavailable failure path is outside this pure
model.) -/
def initializeStore (s : FaissStore) : FaissStore :=
  if s.initialized then s
  else
    let r := restoreRows s.dimension s.db s.documents s.pathToIndexMap s.indexToPathMap 0
    { s with documents := r.1, vectors := r.2.1, pathToIndexMap := r.2.2.1,
             indexToPathMap := r.2.2.2, index := some r.2.1, initialized := true }

/-- The `forEach` of `addDocuments`: `Map.set` each valid document and its
position (starting at the index's current `ntotal`) into the three maps. -/
def addEntries :
    List (String × Document) → List (String × Nat) → List (Nat × String) → Nat →
      List (Document × List ℚ) →
      List (String × Document) × List (String × Nat) × List (Nat × String)
  | docs, p2i, i2p, _, [] => (docs, p2i, i2p)
  | docs, p2i, i2p, cur, (d, _) :: t =>
    addEntries (alistSet d.path d docs) (alistSet d.path cur p2i)
      (alistSet cur d.path i2p) (cur + 1) t

/-- `addDocuments` (sqlite-vec variant, lines 179-212): lazily initialize,
bail out on a missing index or an empty batch, drop documents whose path is
falsy or already present, embed/validate the rest, then append the vectors to
the index and the in-memory array and record the new positions.  The
debounced save is scheduled, not performed, so `db` is unchanged. -/
def addDocuments (emb : String → Option (List ℚ)) (s : FaissStore)
    (docs : List Document) : FaissStore :=
  let s := initializeStore s
  match s.index with
  | none => s
  | some idx =>
    if docs.isEmpty then s
    else
      let newDocs := docs.filter (fun d => !(d.path == "") && !(alistHasKey d.path s.documents))
      if newDocs.isEmpty then s
      else
        let valid := prepareDocuments emb s.dimension newDocs
        if valid.isEmpty then s
        else
          let maps := addEntries s.documents s.pathToIndexMap s.indexToPathMap idx.length valid
          let vectorsToAdd := valid.map Prod.snd
          { s with documents := maps.1, pathToIndexMap := maps.2.1,
                   indexToPathMap := maps.2.2, index := some (idx ++ vectorsToAdd),
                   vectors := s.vectors ++ vectorsToAdd }

/-- The rebuilt `pathToIndexMap`: the surviving keys enumerated from 0. -/
def enumKeysFrom : Nat → List String → List (String × Nat)
  | _, [] => []
  | n, k :: t => (k, n) :: enumKeysFrom (n + 1) t

/-- The rebuilt `indexToPathMap`. -/
def enumPositionsFrom : Nat → List String → List (Nat × String)
  | _, [] => []
  | n, k :: t => (n, k) :: enumPositionsFrom (n + 1) t

/-- `rebuildIndex(isClear)` (lines 443-497): with a present index, build a
fresh one; unless clearing, it re-adds ALL of `this.vectors` (the array is
not filtered) and the position maps are recomputed from the iteration order
of the surviving `documents` keys; when clearing, index, vectors and maps are
emptied.  (The revert-on-error path cannot fire in this pure model.) -/
def rebuildIndex (isClear : Bool) (s : FaissStore) : FaissStore :=
  match s.index with
  | none => s
  | some _ =>
    if isClear then
      { s with vectors := [], index := some [], pathToIndexMap := [], indexToPathMap := [] }
    else
      { s with index := some s.vectors,
               pathToIndexMap := enumKeysFrom 0 (alistKeys s.documents),
               indexToPathMap := enumPositionsFrom 0 (alistKeys s.documents) }

/-- `removeDocument` (lines 285-303): no-op when uninitialized, the index is
missing, or the path is absent; otherwise delete the path from the document
map and both position maps, then `rebuildIndex()` (with its default
`isClear = false`) and schedule a save. -/
def removeDocument (s : FaissStore) (docPath : String) : FaissStore :=
  if !s.initialized || s.index.isNone then s
  else if !(alistHasKey docPath s.documents) then s
  else
    let documents := alistRemove docPath s.documents
    let indexToPathMap :=
      match alistGet docPath s.pathToIndexMap with
      | some docIndex => alistRemove docIndex s.indexToPathMap
      | none => s.indexToPathMap
    let pathToIndexMap := alistRemove docPath s.pathToIndexMap
    rebuildIndex false
      { s with documents := documents, indexToPathMap := indexToPathMap,
               pathToIndexMap := pathToIndexMap }

/-- `removeAllDocuments` (lines 322-338): guarded like `removeDocument`; calls
`rebuildIndex()` (again with the default `isClear = false`), clears the
in-memory structures (which also resets `initialized`), and empties the
table. -/
def removeAllDocuments (s : FaissStore) : FaissStore :=
  if !s.initialized || s.index.isNone then s
  else
    let s1 := rebuildIndex false s
    { s1 with documents := [], vectors := [], pathToIndexMap := [], indexToPathMap := [],
              initialized := false, db := [] }

/-- Squared L2 distance. -/
def sqDist (v w : List ℚ) : ℚ := ((v.zip w).map (fun p => (p.1 - p.2) * (p.1 - p.2))).sum

/-- Insertion into a list sorted by nondecreasing distance. -/
def insSorted (a : Int × ℚ) : List (Int × ℚ) → List (Int × ℚ)
  | [] => [a]
  | b :: t => if a.2 ≤ b.2 then a :: b :: t else b :: insSorted a t

/-- Sort (label, distance) pairs by nondecreasing distance. -/
def sortByDist : List (Int × ℚ) → List (Int × ℚ)
  | [] => []
  | a :: t => insSorted a (sortByDist t)

/-- The stored vectors with their positions as labels. -/
def enumVecs : Nat → List (List ℚ) → List (Int × List ℚ)
  | _, [] => []
  | n, v :: t => ((n : Int), v) :: enumVecs (n + 1) t

/-- The flat-L2 `index.search(query, k)`: the k nearest stored vectors by L2
distance as (label, distance) pairs; when fewer than k vectors are stored the
remaining slots carry label -1 and a sentinel distance (faiss's convention;
every caller skips negative labels). -/
def faissSearch (data : List (List ℚ)) (query : List ℚ) (k : Nat) : List (Int × ℚ) :=
  let scored := (enumVecs 0 data).map (fun p => (p.1, sqDist p.2 query))
  (sortByDist scored).take k ++ List.replicate (k - data.length) ((-1 : Int), (10 ^ 38 : ℚ))

/-- The result loop of `similaritySearch`: skip negative labels, unmapped
positions and missing documents; each surviving document is returned with
`score = 1 / (1 + distance)` spread into its metadata. -/
def collectSearchResults (s : FaissStore) : List (Int × ℚ) → List Document
  | [] => []
  | (idx, dist) :: t =>
    if idx < 0 then collectSearchResults s t
    else
      match alistGet idx.toNat s.indexToPathMap with
      | none => collectSearchResults s t
      | some path =>
        match alistGet path s.documents with
        | none => collectSearchResults s t
        | some doc => { doc with score := some (1 / (1 + dist)) } :: collectSearchResults s t

/-- `similaritySearch` (lines 217-273): empty or missing index returns `[]`;
an embedder failure returns `[]`; an invalid query embedding returns `[]`;
otherwise search and convert. -/
def similaritySearch (emb : String → Option (List ℚ)) (s : FaissStore)
    (queryText : String) (k : Nat) : List Document :=
  match s.index with
  | none => []
  | some data =>
    if data.length = 0 then []
    else
      match emb queryText with
      | none => []
      | some queryVector =>
        match validateAndNormalizeEmbedding s.dimension queryVector with
        | none => []
        | some normalized => collectSearchResults s (faissSearch data normalized k)

/-- The insert loop of `saveIndex`: for each document in iteration order,
look up its position; a missing or out-of-range position skips the row. -/
def saveRowsAux (p2i : List (String × Nat)) (vecs : List (List ℚ)) :
    List (String × Document) → List DbRow
  | [] => []
  | (p, d) :: t =>
    match alistGet p p2i with
    | some i =>
      if i < vecs.length then ⟨p, d, vecs.getD i []⟩ :: saveRowsAux p2i vecs t
      else saveRowsAux p2i vecs t
    | none => saveRowsAux p2i vecs t

/-- `INSERT OR REPLACE` of each row in turn. -/
def insertRows (base : List DbRow) : List DbRow → List DbRow
  | [] => base
  | r :: t => insertRows (dbSet r base) t

/-- `saveIndex` (lines 502-561): skip when uninitialized or index missing;
clear the table when memory is empty; abort (table unchanged) on a count
mismatch; otherwise, in one transaction, delete the rows whose path is not in
memory and insert-or-replace a row per in-memory document. -/
def saveIndex (s : FaissStore) : List DbRow :=
  if !s.initialized || s.index.isNone then s.db
  else if s.documents.length = 0 ∨ s.vectors.length = 0 then []
  else if s.documents.length ≠ s.vectors.length ∨ s.documents.length ≠ faissNtotal s then s.db
  else
    let memPaths := alistKeys s.documents
    let keep := s.db.filter (fun r => memPaths.contains r.path)
    insertRows keep (saveRowsAux s.pathToIndexMap s.vectors s.documents)

/-- The documents paired positionally with the vectors: what a consistent
store's table should hold. -/
def zipRows : List (String × Document) → List (List ℚ) → List DbRow
  | [], _ => []
  | _ :: _, [] => []
  | (p, d) :: t, v :: vt => ⟨p, d, v⟩ :: zipRows t vt

/-- Are the documents' keys mapped to consecutive positions `n, n+1, ...` by
`p2i`?  (`alignedFrom p2i 0 s.documents` holds in every reachable store.) -/
def alignedFrom (p2i : List (String × Nat)) : Nat → List (String × Document) → Bool
  | _, [] => true
  | n, (k, _) :: t => (alistGet k p2i == some n) && alignedFrom p2i (n + 1) t

/-- Does every stored document carry its own key as `path`? -/
def docsConsistent (docs : List (String × Document)) : Bool :=
  docs.all (fun kd => kd.2.path == kd.1)

/-! ## A concrete store scenario (dimension 2, an embedder returning the unit
vector `[1, 0]`) -/

/-- A deterministic embedder: every text embeds to the unit vector. -/
def embTwo : String → Option (List ℚ) := fun _ => some [1, 0]

/-- A freshly initialized empty store of dimension 2. -/
def storeEmpty2 : FaissStore :=
  { documents := [], vectors := [], pathToIndexMap := [], indexToPathMap := [],
    index := some [], dimension := 2, initialized := true, db := [] }

/-- A first document. -/
def docA : Document := { path := "a", content := "alpha", source := "a.md", score := none }

/-- A second document. -/
def docB : Document := { path := "b", content := "beta", source := "b.md", score := none }

/-- The store after `addDocuments([docA, docB])`. -/
def storeAB : FaissStore := addDocuments embTwo storeEmpty2 [docA, docB]

/-- The store after additionally `removeDocument("a")`. -/
def storeABminusA : FaissStore := removeDocument storeAB "a"

example : storeAB.documents.length = 2 ∧ storeAB.vectors.length = 2 ∧ faissNtotal storeAB = 2 := by
  with_unfolding_all decide
example : storeABminusA.documents.length = 1 ∧ storeABminusA.vectors.length = 2 ∧
    faissNtotal storeABminusA = 2 := by with_unfolding_all decide

/-! ## The LangChain-backed vector store (`src/langchainVectorStore.ts`)

State: the in-memory `documents` map, the `langchain_vectors` table (modelled
as its rows: the inserted document — content plus metadata, the path
included — and its embedding), whether `this.vectorStore` is non-null, and
the `initialized` flag. -/

/-- The LangChain store's state. -/
structure LCStore where
  documents : List (String × Document)
  rows : List (Document × List ℚ)
  storeActive : Bool
  initialized : Bool
deriving Repr, DecidableEq

/-- The row-loading loop of `LangChainVectorStore.initialize`: rows whose
metadata carries a truthy `path` are `Map.set` into the document map. -/
def lcLoadDocs : List (String × Document) → List (Document × List ℚ) → List (String × Document)
  | m, [] => m
  | m, (d, _) :: t => lcLoadDocs (if d.path ≠ "" then alistSet d.path d m else m) t

/-- `LangChainVectorStore.initialize`: idempotent; creates the underlying
store and loads the persisted rows into the document map. -/
def lcInitialize (s : LCStore) : LCStore :=
  if s.initialized then s
  else { s with storeActive := true, documents := lcLoadDocs s.documents s.rows,
                initialized := true }

/-- `Promise.all(texts.map(embedFn))`: all embeddings, or failure if any
call fails. -/
def embedAll (emb : String → Option (List ℚ)) : List Document → Option (List (List ℚ))
  | [] => some []
  | d :: t =>
    match emb d.content, embedAll emb t with
    | some v, some vs => some (v :: vs)
    | _, _ => none

/-- `LangChainVectorStore.addDocuments` (lines 168-203): lazily initialize;
bail out on a missing store or empty batch; otherwise `Map.set` EVERY given
document into the in-memory map (no path filter) while building the
LangChain documents, then hand the whole batch to the underlying store,
which embeds each chunk and appends a new row per document (failures are
caught and logged, leaving the rows unchanged). -/
def lcAddDocuments (emb : String → Option (List ℚ)) (s : LCStore)
    (docs : List Document) : LCStore :=
  let s := lcInitialize s
  if !s.storeActive then s
  else if docs.isEmpty then s
  else
    let documents := docs.foldl (fun m d => alistSet d.path d m) s.documents
    match embedAll emb docs with
    | none => { s with documents := documents }
    | some vs => { s with documents := documents, rows := s.rows ++ docs.zip vs }

/-- `LangChainVectorStore.removeDocument` (lines 254-278): guarded no-op;
otherwise `DELETE ... WHERE json_extract(metadata, '$.path') = ?` and
`Map.delete`. -/
def lcRemoveDocument (s : LCStore) (docPath : String) : LCStore :=
  if !s.initialized || !s.storeActive then s
  else if !(alistHasKey docPath s.documents) then s
  else { s with rows := s.rows.filter (fun r => !(r.1.path == docPath)),
                documents := alistRemove docPath s.documents }

/-- `LangChainVectorStore.removeAllDocuments` (lines 283-303). -/
def lcRemoveAllDocuments (s : LCStore) : LCStore :=
  if !s.initialized || !s.storeActive then s
  else { s with rows := [], documents := [] }

/-! ## The `RAGManager` guard of `removeDocument`/`removeAllDocuments`
(`src/ragmanager.ts`, lines 529-547)

Unlike `indexDocuments`, `queryDocuments` and `listDocumentPaths` — which
construct and initialize a vector store when `this.vectorStore` is null —
these two throw immediately.  The thrown error is modelled as the first
component of the result; the second is the state after the call (the store,
and the persisted table that exists on disk whether or not a store object
was ever constructed in this process). -/

/-- The `RAGManager` state: `this.vectorStore` and the on-disk table. -/
structure RagManagerState where
  vectorStore : Option LCStore
  disk : List (Document × List ℚ)
deriving Repr, DecidableEq

/-- `RAGManager.removeDocument`: throw `"Vector store not initialized"` when
no store object exists; otherwise delegate (the store writes through to
disk). -/
def ragRemoveDocument (rm : RagManagerState) (path : String) :
    Option String × RagManagerState :=
  match rm.vectorStore with
  | none => (some "Vector store not initialized", rm)
  | some vs =>
    let vs' := lcRemoveDocument vs path
    (none, { vectorStore := some vs', disk := vs'.rows })

/-- `RAGManager.removeAllDocuments`: same guard, then delegate. -/
def ragRemoveAllDocuments (rm : RagManagerState) :
    Option String × RagManagerState :=
  match rm.vectorStore with
  | none => (some "Vector store not initialized", rm)
  | some vs =>
    let vs' := lcRemoveAllDocuments vs
    (none, { vectorStore := some vs', disk := vs'.rows })

/-! ## Lemmas about the map model -/

lemma not_mem_of_contains_false (k : String) (l : List String) (h : l.contains k = false) :
    k ∉ l := by
  induction l with
  | nil => simp
  | cons a t ih =>
    rw [contains_cons_eq, Bool.or_eq_false_iff] at h
    intro hm
    rcases List.mem_cons.mp hm with he | ht
    · exact beq_eq_false_iff_ne.mp h.1 he
    · exact ih h.2 ht

lemma alistGet_none_of_not_mem {β : Type} (k : String) (m : List (String × β))
    (h : k ∉ alistKeys m) : alistGet k m = none := by
  induction m with
  | nil => rfl
  | cons a t ih =>
    have h1 : a.1 ≠ k := by
      intro he; exact h (by simp [alistKeys, he])
    have h2 : k ∉ alistKeys t := fun hm => h (by simp [alistKeys] at hm ⊢; exact Or.inr hm)
    cases a with
    | mk k' v => simp only [alistGet, if_neg h1]; exact ih h2

lemma mem_keys_of_alistGet_some {β : Type} (k : String) (m : List (String × β)) (v : β)
    (h : alistGet k m = some v) : k ∈ alistKeys m := by
  induction m with
  | nil => simp [alistGet] at h
  | cons a t ih =>
    cases a with
    | mk k' w =>
      by_cases he : k' = k
      · simp [alistKeys, he]
      · simp only [alistGet, if_neg he] at h
        simp [alistKeys]
        exact Or.inr (by simpa [alistKeys] using ih h)

lemma alistGet_remove {β : Type} (p k : String) (m : List (String × β))
    (h : nodupKeys (alistKeys m) = true) :
    alistGet k (alistRemove p m) = if k = p then none else alistGet k m := by
  induction m with
  | nil => simp [alistRemove, alistGet]
  | cons a t ih =>
    cases a with
    | mk k' v =>
      have h' : (!((alistKeys t).contains k') && nodupKeys (alistKeys t)) = true := h
      rw [Bool.and_eq_true] at h'
      have hnd : nodupKeys (alistKeys t) = true := h'.2
      have hcont : (alistKeys t).contains k' = false := by
        have hL := h'.1
        cases hc : (alistKeys t).contains k'
        · rfl
        · rw [hc] at hL; simp at hL
      by_cases hp : k' = p
      · rw [show alistRemove p ((k', v) :: t) = t by simp [alistRemove, hp]]
        by_cases hk : k = p
        · rw [if_pos hk]
          exact alistGet_none_of_not_mem k t (by
            rw [hk, ← hp]; exact not_mem_of_contains_false k' (alistKeys t) hcont)
        · rw [if_neg hk]
          have hk' : k' ≠ k := by rw [hp]; exact fun he => hk he.symm
          simp [alistGet, if_neg hk']
      · rw [show alistRemove p ((k', v) :: t) = (k', v) :: alistRemove p t by
          simp [alistRemove, hp]]
        by_cases hk : k' = k
        · have hkp : k ≠ p := by rw [← hk]; exact hp
          simp [alistGet, hk, if_neg hkp]
        · simp only [alistGet, if_neg hk]
          exact ih hnd

lemma docsConsistent_get (m : List (String × Document))
    (h : docsConsistent m = true) (k : String) (doc : Document)
    (hg : alistGet k m = some doc) : doc.path = k := by
  induction m with
  | nil => simp [alistGet] at hg
  | cons a t ih =>
    cases a with
    | mk k' v =>
      have hall := h
      simp only [docsConsistent, List.all_cons, Bool.and_eq_true] at hall
      by_cases he : k' = k
      · simp only [alistGet, if_pos he] at hg
        cases hg
        have := hall.1
        simp only [beq_iff_eq] at this
        rw [this, he]
      · simp only [alistGet, if_neg he] at hg
        exact ih hall.2 hg

lemma alistSet_length_of_has {β : Type} (k : String) (v : β) (m : List (String × β))
    (h : alistHasKey k m = true) : (alistSet k v m).length = m.length := by
  induction m with
  | nil => simp [alistHasKey, alistGet] at h
  | cons a t ih =>
    cases a with
    | mk k' w =>
      by_cases he : k' = k
      · simp [alistSet, he]
      · simp only [alistSet, if_neg he, List.length_cons]
        simp only [alistHasKey, alistGet, if_neg he] at h
        rw [ih h]

/-! ## Lemmas about the search pipeline -/

lemma mem_collectSearchResults (s : FaissStore) (pairs : List (Int × ℚ)) (d : Document)
    (h : d ∈ collectSearchResults s pairs) :
    ∃ key doc sc, alistGet key s.documents = some doc ∧
      d = { doc with score := some sc } := by
  induction pairs with
  | nil => simp [collectSearchResults] at h
  | cons a t ih =>
    cases a with
    | mk idx dist =>
      by_cases hneg : idx < 0
      · rw [show collectSearchResults s ((idx, dist) :: t) = collectSearchResults s t by
          simp [collectSearchResults, hneg]] at h
        exact ih h
      · rcases hpath : alistGet idx.toNat s.indexToPathMap with _ | path
        · rw [show collectSearchResults s ((idx, dist) :: t) = collectSearchResults s t by
            simp [collectSearchResults, hneg, hpath]] at h
          exact ih h
        · rcases hdoc : alistGet path s.documents with _ | doc
          · rw [show collectSearchResults s ((idx, dist) :: t) = collectSearchResults s t by
              simp [collectSearchResults, hneg, hpath, hdoc]] at h
            exact ih h
          · rw [show collectSearchResults s ((idx, dist) :: t) =
                { doc with score := some (1 / (1 + dist)) } :: collectSearchResults s t by
              simp [collectSearchResults, hneg, hpath, hdoc]] at h
            rcases List.mem_cons.mp h with he | ht
            · exact ⟨path, doc, 1 / (1 + dist), hdoc, he⟩
            · exact ih ht

lemma collectSearchResults_length_le (s : FaissStore) (pairs : List (Int × ℚ)) :
    (collectSearchResults s pairs).length ≤ pairs.length := by
  induction pairs with
  | nil => simp [collectSearchResults]
  | cons a t ih =>
    cases a with
    | mk idx dist =>
      by_cases hneg : idx < 0
      · rw [show collectSearchResults s ((idx, dist) :: t) = collectSearchResults s t by
          simp [collectSearchResults, hneg]]
        exact Nat.le_succ_of_le ih
      · rcases hpath : alistGet idx.toNat s.indexToPathMap with _ | path
        · rw [show collectSearchResults s ((idx, dist) :: t) = collectSearchResults s t by
            simp [collectSearchResults, hneg, hpath]]
          exact Nat.le_succ_of_le ih
        · rcases hdoc : alistGet path s.documents with _ | doc
          · rw [show collectSearchResults s ((idx, dist) :: t) = collectSearchResults s t by
              simp [collectSearchResults, hneg, hpath, hdoc]]
            exact Nat.le_succ_of_le ih
          · rw [show collectSearchResults s ((idx, dist) :: t) =
                { doc with score := some (1 / (1 + dist)) } :: collectSearchResults s t by
              simp [collectSearchResults, hneg, hpath, hdoc]]
            simpa using ih

/-! ## Lemmas about `saveIndex` -/

lemma mem_of_contains_true (k : String) (l : List String) (h : l.contains k = true) :
    k ∈ l := by
  induction l with
  | nil => simp [List.contains] at h
  | cons a t ih =>
    rw [contains_cons_eq] at h
    rcases Bool.or_eq_true_iff.mp h with h1 | h2
    · exact List.mem_cons.mpr (Or.inl (beq_iff_eq.mp h1))
    · exact List.mem_cons.mpr (Or.inr (ih h2))

lemma dbGet_none_of_not_mem (p : String) (rows : List DbRow)
    (h : p ∉ rows.map DbRow.path) : dbGet p rows = none := by
  induction rows with
  | nil => rfl
  | cons r t ih =>
    have h1 : r.path ≠ p := fun he => h (by simp [he])
    have h2 : p ∉ t.map DbRow.path := fun hm => h (by simp at hm ⊢; exact Or.inr hm)
    simp only [dbGet, if_neg h1]
    exact ih h2

lemma dbGet_dbSet (r : DbRow) (base : List DbRow) (p : String) :
    dbGet p (dbSet r base) = if r.path = p then some r else dbGet p base := by
  induction base with
  | nil => simp [dbSet, dbGet]
  | cons r' t ih =>
    by_cases he : r'.path = r.path
    · rw [show dbSet r (r' :: t) = r :: t by simp [dbSet, he]]
      by_cases hp : r.path = p
      · simp [dbGet, hp]
      · have h2 : r'.path ≠ p := by rw [he]; exact hp
        simp [dbGet, hp, h2]
    · rw [show dbSet r (r' :: t) = r' :: dbSet r t by simp [dbSet, he]]
      by_cases hp : r'.path = p
      · have h2 : r.path ≠ p := fun hh => he (by rw [hp, hh])
        simp [dbGet, hp, h2]
      · simp [dbGet, hp, ih]

lemma dbGet_insertRows (p : String) :
    ∀ (rows base : List DbRow), nodupKeys (rows.map DbRow.path) = true →
      dbGet p (insertRows base rows) =
        (match dbGet p rows with
         | some r => some r
         | none => dbGet p base) := by
  intro rows
  induction rows with
  | nil => intro base _; simp [insertRows, dbGet]
  | cons r t ih =>
    intro base hnd
    have h' : (!((t.map DbRow.path).contains r.path) && nodupKeys (t.map DbRow.path)) = true :=
      hnd
    rw [Bool.and_eq_true] at h'
    have hcf : (t.map DbRow.path).contains r.path = false := by
      have hL := h'.1
      cases hc : (t.map DbRow.path).contains r.path
      · rfl
      · rw [hc] at hL; simp at hL
    rw [show insertRows base (r :: t) = insertRows (dbSet r base) t from rfl]
    rw [ih (dbSet r base) h'.2]
    by_cases hp : r.path = p
    · have hnone : dbGet p t = none := by
        apply dbGet_none_of_not_mem
        rw [← hp]
        exact not_mem_of_contains_false r.path (t.map DbRow.path) hcf
      rw [hnone]
      rw [show dbGet p (r :: t) = some r by simp [dbGet, hp]]
      rw [dbGet_dbSet, if_pos hp]
    · rw [show dbGet p (r :: t) = dbGet p t by simp [dbGet, hp]]
      rcases hget : dbGet p t with _ | r'
      · simp only []
        rw [dbGet_dbSet, if_neg hp]
      · rfl

lemma zipRows_map_path :
    ∀ (docs : List (String × Document)) (vecs : List (List ℚ)),
      docs.length ≤ vecs.length → (zipRows docs vecs).map DbRow.path = alistKeys docs := by
  intro docs
  induction docs with
  | nil => intro vecs _; rfl
  | cons a t ih =>
    intro vecs hlen
    cases a with
    | mk k d =>
      cases vecs with
      | nil => simp at hlen
      | cons v vt =>
        simp only [zipRows, List.map_cons]
        rw [ih vt (by simp at hlen; omega)]
        rfl

lemma dbGet_zipRows_none (p : String) :
    ∀ (docs : List (String × Document)) (vecs : List (List ℚ)),
      p ∉ alistKeys docs → dbGet p (zipRows docs vecs) = none := by
  intro docs
  induction docs with
  | nil => intro vecs _; cases vecs <;> rfl
  | cons a t ih =>
    intro vecs h
    cases a with
    | mk k d =>
      cases vecs with
      | nil => rfl
      | cons v vt =>
        have h1 : k ≠ p := fun he => h (by simp [alistKeys, he])
        have h2 : p ∉ alistKeys t := fun hm => h (by simp [alistKeys] at hm ⊢; exact Or.inr hm)
        simp only [zipRows, dbGet, if_neg h1]
        exact ih vt h2

lemma dbGet_zipRows_isSome (p : String) :
    ∀ (docs : List (String × Document)) (vecs : List (List ℚ)),
      docs.length ≤ vecs.length → p ∈ alistKeys docs →
        (dbGet p (zipRows docs vecs)).isSome = true := by
  intro docs
  induction docs with
  | nil => intro vecs _ h; simp [alistKeys] at h
  | cons a t ih =>
    intro vecs hlen h
    cases a with
    | mk k d =>
      cases vecs with
      | nil => simp at hlen
      | cons v vt =>
        by_cases he : k = p
        · simp [zipRows, dbGet, he]
        · have h2 : p ∈ alistKeys t := by
            simp [alistKeys] at h
            rcases h with h | h
            · exact absurd h.symm he
            · simpa [alistKeys] using h
          simp only [zipRows, dbGet, if_neg he]
          exact ih vt (by simp at hlen; omega) h2

lemma dbGet_filter_none (p : String) (memPaths : List String)
    (h : memPaths.contains p = false) :
    ∀ db : List DbRow, dbGet p (db.filter (fun r => memPaths.contains r.path)) = none := by
  intro db
  induction db with
  | nil => rfl
  | cons r t ih =>
    cases hc : memPaths.contains r.path
    · rw [show (r :: t).filter (fun r => memPaths.contains r.path) =
        t.filter (fun r => memPaths.contains r.path) by
          simp only [List.filter_cons, hc]; rfl]
      exact ih
    · rw [show (r :: t).filter (fun r => memPaths.contains r.path) =
        r :: t.filter (fun r => memPaths.contains r.path) by
          simp only [List.filter_cons, hc]; rfl]
      have hne : r.path ≠ p := by
        intro he
        rw [he] at hc
        rw [hc] at h
        exact Bool.true_eq_false.mp h
      simp only [dbGet, if_neg hne]
      exact ih

lemma saveRowsAux_eq_zipRows (p2i : List (String × Nat)) (vecs : List (List ℚ)) :
    ∀ (docs : List (String × Document)) (n : Nat),
      alignedFrom p2i n docs = true → n + docs.length ≤ vecs.length →
        saveRowsAux p2i vecs docs = zipRows docs (vecs.drop n) := by
  intro docs
  induction docs with
  | nil => intro n _ _; rfl
  | cons a t ih =>
    intro n hal hlen
    cases a with
    | mk k d =>
      have h' : ((alistGet k p2i == some n) && alignedFrom p2i (n + 1) t) = true := hal
      rw [Bool.and_eq_true] at h'
      have hget : alistGet k p2i = some n := beq_iff_eq.mp h'.1
      have hlt : n < vecs.length := by simp at hlen; omega
      rw [show saveRowsAux p2i vecs ((k, d) :: t) =
          ⟨k, d, vecs.getD n []⟩ :: saveRowsAux p2i vecs t by
        simp [saveRowsAux, hget, hlt]]
      rw [ih (n + 1) h'.2 (by simp at hlen ⊢; omega)]
      have hdrop : vecs.drop n = vecs.getD n [] :: vecs.drop (n + 1) := by
        rw [List.drop_eq_getElem_cons hlt, List.getD_eq_getElem vecs [] hlt]
      rw [hdrop]
      rfl

lemma insSorted_length (a : Int × ℚ) (l : List (Int × ℚ)) :
    (insSorted a l).length = l.length + 1 := by
  induction l with
  | nil => rfl
  | cons b t ih =>
    by_cases h : a.2 ≤ b.2 <;> simp [insSorted, h, ih]

lemma sortByDist_length (l : List (Int × ℚ)) : (sortByDist l).length = l.length := by
  induction l with
  | nil => rfl
  | cons a t ih => simp [sortByDist, insSorted_length, ih]

lemma enumVecs_length : ∀ (n : Nat) (l : List (List ℚ)), (enumVecs n l).length = l.length := by
  intro n l
  induction l generalizing n with
  | nil => rfl
  | cons v t ih => simp [enumVecs, ih]

lemma faissSearch_length_le (data : List (List ℚ)) (q : List ℚ) (k : Nat) :
    (faissSearch data q k).length ≤ k := by
  unfold faissSearch
  simp only [List.length_append, List.length_take, List.length_replicate,
    sortByDist_length, List.length_map, enumVecs_length]
  omega

lemma ceilDiv_eq_one (a b : Nat) (h1 : 0 < a) (h2 : a ≤ b) : ceilDiv a b = 1 := by
  unfold ceilDiv
  apply Nat.div_eq_of_lt_le <;> omega

lemma removeDocument_eq (s : FaissStore) (p : String) (idx : List (List ℚ))
    (h1 : s.initialized = true) (h2 : s.index = some idx)
    (h3 : alistHasKey p s.documents = true) :
    removeDocument s p =
      { s with documents := alistRemove p s.documents,
               pathToIndexMap := enumKeysFrom 0 (alistKeys (alistRemove p s.documents)),
               indexToPathMap := enumPositionsFrom 0 (alistKeys (alistRemove p s.documents)),
               index := some s.vectors } := by
  unfold removeDocument
  rw [h1, h3]
  simp only [Bool.not_true, Bool.false_or]
  rw [show s.index.isNone = false by rw [h2]; rfl]
  simp only [Bool.false_eq_true, if_false, if_true, ite_false, ite_true]
  unfold rebuildIndex
  rcases hget : alistGet p s.pathToIndexMap with _ | docIndex <;> simp [h2, hget]

/-! ## The claims -/

/-- Claim C5: `similaritySearch(queryText, k)` returns an empty sequence
rather than throwing when the index is uninitialized (null), when the index
is empty, and when embedding the query text fails; in all other cases it
returns at most k results.  (The source checks the index before invoking the
embedder; since the embedder is modelled as a pure function, the order of
the checks is not observable here.) -/
theorem claim5_similaritySearch_error_handling
    (emb : String → Option (List ℚ)) (s : FaissStore) (q : String) (k : Nat) :
    (s.index = none → similaritySearch emb s q k = []) ∧
    (faissNtotal s = 0 → similaritySearch emb s q k = []) ∧
    (emb q = none → similaritySearch emb s q k = []) ∧
    (similaritySearch emb s q k).length ≤ k := by
  refine ⟨?_, ?_, ?_, ?_⟩
  · intro h
    unfold similaritySearch
    rw [h]
  · intro h
    unfold similaritySearch
    rcases hidx : s.index with _ | data
    · rfl
    · have hl : data.length = 0 := by
        unfold faissNtotal at h
        rw [hidx] at h
        exact h
      simp [hl]
  · intro h
    unfold similaritySearch
    rcases hidx : s.index with _ | data
    · rfl
    · by_cases hl : data.length = 0
      · simp [hl]
      · simp [hl, h]
  · unfold similaritySearch
    rcases hidx : s.index with _ | data
    · simp
    · by_cases hl : data.length = 0
      · simp [hl]
      · rcases hq : emb q with _ | qv
        · simp [hl, hq]
        · rcases hn : validateAndNormalizeEmbedding s.dimension qv with _ | nq
          · simp [hl, hq, hn]
          · simp only [hl, hq, hn, if_neg]
            calc (collectSearchResults s (faissSearch data nq k)).length
                ≤ (faissSearch data nq k).length := collectSearchResults_length_le s _
              _ ≤ k := faissSearch_length_le data nq k

/-- Claim C5 witness: at a concrete uninitialized store, a concrete empty
store, a failing embedder, and a concrete search. -/
theorem claim5_witness :
    similaritySearch embTwo
      { storeEmpty2 with index := none, initialized := false } "q" 3 = [] ∧
    similaritySearch embTwo storeEmpty2 "q" 3 = [] ∧
    similaritySearch (fun _ => none) storeAB "q" 3 = [] ∧
    (similaritySearch embTwo storeAB "q" 3).length ≤ 3 := by
  refine ⟨?_, ?_, ?_, ?_⟩
  · exact (claim5_similaritySearch_error_handling embTwo
      { storeEmpty2 with index := none, initialized := false } "q" 3).1 rfl
  · exact (claim5_similaritySearch_error_handling embTwo storeEmpty2 "q" 3).2.1
      (by with_unfolding_all decide)
  · exact (claim5_similaritySearch_error_handling (fun _ => none) storeAB "q" 3).2.2.1 rfl
  · exact (claim5_similaritySearch_error_handling embTwo storeAB "q" 3).2.2.2

/-- Claim C2 counterexample: in the two-document store, removing `"a"`
leaves the FAISS index with 2 vectors while only 1 document (and hence one
"remaining" vector) survives — the index is rebuilt from the ENTIRE
unfiltered `this.vectors` array, not from the remaining vectors. -/
theorem claim2_counterexample :
    faissNtotal storeABminusA = 2 ∧ storeABminusA.documents.length = 1 ∧
    ((faissNtotal storeABminusA = storeABminusA.documents.length) ↔ False) := by
  with_unfolding_all decide

/-- Claim C2 (amended): after `removeDocument(p)` on a consistent store, the
entry for p is deleted from the document map and the position maps are
rebuilt over the surviving documents, but the index is rebuilt from the
entire in-memory `vectors` array (which still contains p's vector, since
removal never shrinks it); nonetheless no subsequent `similaritySearch`
returns a chunk whose path is p, because results are produced only through
the rebuilt position maps and the surviving document map. -/
theorem claim2_remove_then_search_never_returns_path
    (s : FaissStore) (p : String) (idx : List (List ℚ))
    (emb : String → Option (List ℚ)) (q : String) (k : Nat)
    (h1 : s.initialized = true) (h2 : s.index = some idx)
    (h3 : alistHasKey p s.documents = true)
    (h4 : nodupKeys (alistKeys s.documents) = true)
    (h5 : docsConsistent s.documents = true) :
    (removeDocument s p).documents = alistRemove p s.documents ∧
    (removeDocument s p).pathToIndexMap =
      enumKeysFrom 0 (alistKeys (alistRemove p s.documents)) ∧
    (removeDocument s p).indexToPathMap =
      enumPositionsFrom 0 (alistKeys (alistRemove p s.documents)) ∧
    (removeDocument s p).index = some s.vectors ∧
    ((similaritySearch emb (removeDocument s p) q k).all
      (fun d => !(d.path == p))) = true := by
  have heq := removeDocument_eq s p idx h1 h2 h3
  refine ⟨by rw [heq], by rw [heq], by rw [heq], by rw [heq], ?_⟩
  rw [List.all_eq_true]
  intro d hd
  have hmem : ∃ key doc sc, alistGet key (removeDocument s p).documents = some doc ∧
      d = { doc with score := some sc } := by
    unfold similaritySearch at hd
    rcases hidx2 : (removeDocument s p).index with _ | data
    · rw [hidx2] at hd; simp at hd
    · rw [hidx2] at hd
      by_cases hl : data.length = 0
      · simp [hl] at hd
      · rcases hq : emb q with _ | qv
        · simp [hl, hq] at hd
        · rcases hn : validateAndNormalizeEmbedding (removeDocument s p).dimension qv
            with _ | nq
          · simp [hl, hq, hn] at hd
          · simp only [hl, hq, hn, if_neg] at hd
            exact mem_collectSearchResults (removeDocument s p) _ d hd
  rcases hmem with ⟨key, doc, sc, hget, hd2⟩
  have hdocs2 : (removeDocument s p).documents = alistRemove p s.documents := by rw [heq]
  rw [hdocs2, alistGet_remove p key s.documents h4] at hget
  by_cases hkp : key = p
  · rw [if_pos hkp] at hget
    exact absurd hget (by simp)
  · rw [if_neg hkp] at hget
    have hpath : doc.path = key := docsConsistent_get s.documents h5 key doc hget
    have hdp : d.path = key := by rw [hd2]; exact hpath
    rw [hdp]
    simp only [Bool.not_eq_true']
    exact beq_eq_false_iff_ne.mpr hkp

/-- Claim C2 witness: the two-document scenario, with removal of `"a"`. -/
theorem claim2_witness :
    (removeDocument storeAB "a").documents = alistRemove "a" storeAB.documents ∧
    (removeDocument storeAB "a").index = some storeAB.vectors ∧
    ((similaritySearch embTwo (removeDocument storeAB "a") "query" 5).all
      (fun d => !(d.path == "a"))) = true := by
  have h := claim2_remove_then_search_never_returns_path storeAB "a"
    (storeAB.index.getD []) embTwo "query" 5
    (by with_unfolding_all decide) (by with_unfolding_all decide)
    (by with_unfolding_all decide) (by with_unfolding_all decide)
    (by with_unfolding_all decide)
  exact ⟨h.1, h.2.2.2.1, h.2.2.2.2⟩

/-- A pre-populated LangChain store: one document under path `"x.md"`, one
underlying vector row. -/
def docX : Document := { path := "x.md", content := "xc", source := "x.md", score := none }

/-- The LangChain store already holding `docX`. -/
def lcStoreX : LCStore :=
  { documents := [("x.md", docX)], rows := [(docX, [1, 0])],
    storeActive := true, initialized := true }

/-- Claim C3 counterexample: re-adding a document whose path already exists
to the LangChain-backed store (`src/langchainVectorStore.ts`, the store the
shipped `RAGManager` uses) appends a NEW row/vector to the underlying
`langchain_vectors` table — the second `addDocuments` call is not a no-op. -/
theorem claim3_counterexample :
    (lcAddDocuments embTwo lcStoreX [docX]).rows.length = 2 ∧
    (((lcAddDocuments embTwo lcStoreX [docX]).rows.length = lcStoreX.rows.length) ↔
      False) := by
  with_unfolding_all decide

/-- Claim C3 (amended): `addDocuments` is idempotent per path for the
FAISS-backed store — a batch consisting of an already-present path leaves the
store exactly unchanged — while the LangChain-backed store does not
deduplicate by path: re-adding an existing document overwrites its in-memory
map entry (map size unchanged) but appends a new vector row to the
underlying store. -/
theorem claim3_add_existing_path
    (emb emb2 : String → Option (List ℚ)) (s : FaissStore) (d : Document)
    (t : LCStore) (e : Document) (v : List ℚ)
    (h1 : s.initialized = true) (h2 : alistHasKey d.path s.documents = true)
    (h3 : t.initialized = true) (h4 : t.storeActive = true)
    (h5 : alistHasKey e.path t.documents = true) (h6 : emb2 e.content = some v) :
    addDocuments emb s [d] = s ∧
    (lcAddDocuments emb2 t [e]).documents.length = t.documents.length ∧
    (lcAddDocuments emb2 t [e]).rows.length = t.rows.length + 1 := by
  have hinitF : initializeStore s = s := by unfold initializeStore; rw [h1]; rfl
  have hinitL : lcInitialize t = t := by unfold lcInitialize; rw [h3]; rfl
  have hemb : embedAll emb2 [e] = some [v] := by simp [embedAll, h6]
  refine ⟨?_, ?_, ?_⟩
  · rcases hidx : s.index with _ | idx
    · simp [addDocuments, hinitF, hidx]
    · have hfilter : [d].filter
          (fun d => !(d.path == "") && !(alistHasKey d.path s.documents)) = [] := by
        simp [List.filter, h2]
      simp [addDocuments, hinitF, hidx, hfilter]
  · simp only [lcAddDocuments, hinitL, h4, Bool.not_true, Bool.false_eq_true, if_false,
      List.isEmpty_cons, hemb, List.foldl]
    exact alistSet_length_of_has e.path e t.documents h5
  · simp only [lcAddDocuments, hinitL, h4, Bool.not_true, Bool.false_eq_true, if_false,
      List.isEmpty_cons, hemb, List.foldl]
    simp [List.zip]

/-- Claim C3 witness: the FAISS two-document store re-offered `docA`, and the
LangChain store re-offered `docX`. -/
theorem claim3_witness :
    addDocuments embTwo storeAB [docA] = storeAB ∧
    (lcAddDocuments embTwo lcStoreX [docX]).documents.length =
      lcStoreX.documents.length ∧
    (lcAddDocuments embTwo lcStoreX [docX]).rows.length = lcStoreX.rows.length + 1 :=
  claim3_add_existing_path embTwo embTwo storeAB docA lcStoreX docX [1, 0]
    (by with_unfolding_all decide) (by with_unfolding_all decide)
    (by with_unfolding_all decide) (by with_unfolding_all decide)
    (by with_unfolding_all decide) (by with_unfolding_all decide)

/-- Claim C6: `saveIndex` (i) clears the persisted table when the in-memory
store is empty; (ii) leaves the persisted table unchanged when the counts
`|documents| = |vectors| = index.ntotal()` fail to agree (the save is
aborted); (iii) on a consistent store (duplicate-free keys, positions
aligned with document order, counts equal) it replaces the persisted content
with exactly the in-memory state: afterwards every path lookup in the table
agrees with the in-memory documents zipped with their vectors.  The
transaction is modelled as the atomic function from old to new table. -/
theorem claim6_saveIndex_spec (s : FaissStore) :
    (s.initialized = true → s.index.isSome = true →
      s.documents = [] → s.vectors = [] → saveIndex s = []) ∧
    (s.initialized = true → s.index.isSome = true →
      s.documents ≠ [] → s.vectors ≠ [] →
      ¬(s.documents.length = s.vectors.length ∧ s.documents.length = faissNtotal s) →
      saveIndex s = s.db) ∧
    (s.initialized = true → s.index.isSome = true →
      s.documents ≠ [] →
      s.documents.length = s.vectors.length → s.documents.length = faissNtotal s →
      nodupKeys (alistKeys s.documents) = true →
      alignedFrom s.pathToIndexMap 0 s.documents = true →
      ∀ p, dbGet p (saveIndex s) = dbGet p (zipRows s.documents s.vectors)) := by
  refine ⟨?_, ?_, ?_⟩
  · intro h1 h2 hd hv
    unfold saveIndex
    rw [h1, show s.index.isNone = false by
      rcases hix : s.index with _ | x
      · rw [hix] at h2; simp at h2
      · rfl]
    rw [if_neg (by simp), if_pos (Or.inl (by rw [hd]; rfl))]
  · intro h1 h2 hd hv hmis
    unfold saveIndex
    rw [h1, show s.index.isNone = false by
      rcases hix : s.index with _ | x
      · rw [hix] at h2; simp at h2
      · rfl]
    have hd0 : ¬(s.documents.length = 0) := by
      intro h0; exact hd (List.length_eq_zero.mp h0)
    have hv0 : ¬(s.vectors.length = 0) := by
      intro h0; exact hv (List.length_eq_zero.mp h0)
    have hmis' : s.documents.length ≠ s.vectors.length ∨
        s.documents.length ≠ faissNtotal s := by
      by_cases ha : s.documents.length = s.vectors.length
      · right; intro hb; exact hmis ⟨ha, hb⟩
      · left; exact ha
    rw [if_neg (by simp), if_neg (by omega), if_pos hmis']
  · intro h1 h2 hd hlen1 hlen2 hnd hal
    intro p
    unfold saveIndex
    rw [h1, show s.index.isNone = false by
      rcases hix : s.index with _ | x
      · rw [hix] at h2; simp at h2
      · rfl]
    have hd0 : ¬(s.documents.length = 0) := by
      intro h0; exact hd (List.length_eq_zero.mp h0)
    have hv0 : ¬(s.vectors.length = 0) := by
      intro h0
      rw [h0] at hlen1
      exact hd0 hlen1
    rw [if_neg (by simp), if_neg (by omega), if_neg (by omega)]
    have hrows : saveRowsAux s.pathToIndexMap s.vectors s.documents =
        zipRows s.documents s.vectors := by
      rw [saveRowsAux_eq_zipRows s.pathToIndexMap s.vectors s.documents 0 hal
        (by omega), List.drop_zero]
    rw [hrows]
    have hlenle : s.documents.length ≤ s.vectors.length := by omega
    have hndrows : nodupKeys ((zipRows s.documents s.vectors).map DbRow.path) = true := by
      rw [zipRows_map_path s.documents s.vectors hlenle]
      exact hnd
    rw [dbGet_insertRows p (zipRows s.documents s.vectors) _ hndrows]
    rcases hz : dbGet p (zipRows s.documents s.vectors) with _ | r
    · have hpm : p ∉ alistKeys s.documents := by
        intro hmem
        have := dbGet_zipRows_isSome p s.documents s.vectors hlenle hmem
        rw [hz] at this
        simp at this
      have hcf : (alistKeys s.documents).contains p = false := by
        cases hc : (alistKeys s.documents).contains p
        · rfl
        · exact absurd (mem_of_contains_true p _ hc) hpm
      exact dbGet_filter_none p (alistKeys s.documents) hcf s.db
    · rfl

/-- Claim C6 witness: conjunct (iii) instantiated at the consistent
two-document store — the saved table agrees with the in-memory rows. -/
theorem claim6_witness :
    dbGet "a" (saveIndex storeAB) = dbGet "a" (zipRows storeAB.documents storeAB.vectors) ∧
    dbGet "b" (saveIndex storeAB) = dbGet "b" (zipRows storeAB.documents storeAB.vectors) := by
  have h := (claim6_saveIndex_spec storeAB).2.2 (by with_unfolding_all decide)
    (by with_unfolding_all decide) (by with_unfolding_all decide)
    (by with_unfolding_all decide) (by with_unfolding_all decide)
    (by with_unfolding_all decide) (by with_unfolding_all decide)
  exact ⟨h "a", h "b"⟩

/-- Claim C1: the invariant `|documents| = |vectors| = index.ntotal()` is
BROKEN by `removeDocument` — the removed document's vector is never removed
from `this.vectors`, and `rebuildIndex` re-adds the whole array — so after
removing one of two documents the counts are 1 / 2 / 2, and a subsequent
`saveIndex` on such a store hits its own consistency assertion and aborts,
leaving the persisted table unchanged. -/
theorem claim1_invariant_violation_at_code :
    storeAB.documents.length = 2 ∧ storeAB.vectors.length = 2 ∧
    faissNtotal storeAB = 2 ∧
    storeABminusA.documents.length = 1 ∧ storeABminusA.vectors.length = 2 ∧
    faissNtotal storeABminusA = 2 ∧
    saveIndex { storeABminusA with db := [⟨"b", docB, [1, 0]⟩] } =
      [⟨"b", docB, [1, 0]⟩] := by
  with_unfolding_all decide

/-- Claim C4: (i) the retry recursion of `fetchEmbedding`, taken by itself,
would perform exactly 4 attempts with waits 1000, 1500, 2250 ms and surface
the last error when every attempt fails retryably — this is what the claim
(and the function's own documentation) describe; (ii) but under the serial
queue discipline the re-entrant retry call chains its task BEHIND the
still-running task that awaits it, so only job 0 ever starts and no chain
ever settles: the first retry deadlocks the request and the queue. -/
theorem claim4_retry_logic_and_queue_deadlock :
    fetchEmbeddingTries (fun _ => Except.error "socket hang up") 3 1000 0 =
      (Except.error "socket hang up", [1000, 1500, 2250], 4) ∧
    (∀ i : Nat, (queueJobStarted i ↔ i = 0) ∧ (queueJobSettled i ↔ False)) := by
  constructor
  · set_option maxRecDepth 8000 in with_unfolding_all decide
  · intro i
    refine ⟨⟨fun h => (queueEv_elim true i h).2, fun h => ?_⟩,
      ⟨fun h => absurd (queueEv_elim false i h).1 (by simp), False.elim⟩⟩
    rw [h]
    exact QueueEv.first

/-- A one-document result whose content carries surrounding whitespace. -/
def docWs : Document :=
  { path := "p", content := " hello ", source := "a.md", score := none }

/-- Claim C7 counterexample: the code emits the chunk's TRIMMED content
between the newlines, so on a chunk whose content is `" hello "` the
produced string differs from the claim's `[DOCUMENT:slug]\ncontent\n...`
with the raw content. -/
theorem claim7_counterexample :
    formatQueryResults [docWs] = "[DOCUMENT:a]\nhello\n[/DOCUMENT:a]" ∧
    claimedQueryFormat [docWs] = "[DOCUMENT:a]\n hello \n[/DOCUMENT:a]" ∧
    ((formatQueryResults [docWs] = claimedQueryFormat [docWs]) ↔ False) := by
  with_unfolding_all decide

/-- Claim C7 (amended): the formatted query result equals the retrieved
chunks deduplicated by trimmed content (first occurrence wins, order
preserved — the spec-style filtering recursion), each survivor wrapped as
`[DOCUMENT:slug]`, newline, its TRIMMED content, newline,
`[/DOCUMENT:slug]` (slug = source with a trailing `.md` stripped and
whitespace runs replaced by underscores), joined by blank lines. -/
theorem claim7_format_query_results (rs : List Document) :
    formatQueryResults rs =
      String.intercalate "\n\n" ((specDedup rs).map specWrapTrimmed) := by
  unfold formatQueryResults deduplicateResults
  rw [dedupAux_eq_specDedup]
  rw [show rs.filter (fun d => !(([] : List String).contains (jsTrim d.content))) = rs from
    List.filter_eq_self.mpr (fun a _ => rfl)]
  rfl

/-- The 1200-character plain text of the spec's scenario. -/
def textPlain1200 : List Char := List.replicate 1200 'a'

/-- Claim C8 counterexample: on a 1000-character plain text with chunk size
500 and overlap 200 the sliding window emits 4 chunks (`i` takes the values
0, 300, 600, 900), but the claimed formula `ceil((len-overlap)/(size-overlap))`
gives 3. -/
theorem claim8_counterexample :
    (P3.chunkText (List.replicate 1000 'a') 500 200).length = 4 ∧
    ceilDiv (1000 - 200) (500 - 200) = 3 ∧
    (((P3.chunkText (List.replicate 1000 'a') 500 200).length =
      ceilDiv (1000 - 200) (500 - 200)) ↔ False) := by
  have h1 : (P3.chunkText (List.replicate 1000 'a') 500 200).length = 4 := by
    unfold P3.chunkText
    rw [slidingChunks_length _ _ _ (by omega)]
    rw [List.length_replicate]
    decide
  have h2 : ceilDiv (1000 - 200) (500 - 200) = 3 := by decide
  refine ⟨h1, h2, ?_⟩
  rw [h1, h2]
  simp

/-- Claim C8 (amended): for `0 ≤ overlap < size` the sliding-window chunker
emits exactly `ceil(len(text) / (size - overlap))` chunks, the t-th covering
`text.slice(t*(size-overlap), t*(size-overlap) + size)`.  (The spec's
1200-character scenario — 4 chunks covering [0:500], [300:800], [600:1100],
[900:1200] — is the witness instance; the claimed general count formula
`ceil((len-overlap)/(size-overlap))` holds there but not in general.) -/
theorem claim8_sliding_window_chunks (text : List Char) (chunkSize overlap : Nat)
    (hov : overlap < chunkSize) :
    P3.chunkText text chunkSize overlap =
      (List.range (ceilDiv text.length (chunkSize - overlap))).map
        (fun t => sliceLen text (t * (chunkSize - overlap)) chunkSize) ∧
    (P3.chunkText text chunkSize overlap).length =
      ceilDiv text.length (chunkSize - overlap) := by
  have hstep : 0 < chunkSize - overlap := by omega
  exact ⟨slidingChunks_eq text chunkSize _ hstep, slidingChunks_length text chunkSize _ hstep⟩

/-- Claim C8 witness: the 1200-character plain-text scenario — exactly 4
chunks covering the ranges [0:500], [300:800], [600:1100], [900:1200]. -/
theorem claim8_witness :
    (P3.chunkText textPlain1200 500 200).length = 4 ∧
    P3.chunkText textPlain1200 500 200 =
      [sliceFT textPlain1200 0 500, sliceFT textPlain1200 300 800,
       sliceFT textPlain1200 600 1100, sliceFT textPlain1200 900 1200] := by
  have h := claim8_sliding_window_chunks textPlain1200 500 200 (by omega)
  have hceil : ceilDiv textPlain1200.length (500 - 200) = 4 := by
    rw [show textPlain1200.length = 1200 by
      rw [show textPlain1200 = List.replicate 1200 'a' from rfl, List.length_replicate]]
    decide
  constructor
  · rw [h.2, hceil]
  · rw [h.1, hceil]
    rw [show List.range 4 = [0, 1, 2, 3] from by decide]
    simp only [List.map_cons, List.map_nil]
    rw [show sliceLen textPlain1200 (3 * (500 - 200)) 500 = sliceFT textPlain1200 900 1200 by
      show (textPlain1200.drop 900).take 500 = (textPlain1200.drop 900).take 300
      rw [show textPlain1200.drop 900 = List.replicate 300 'a' from
        List.drop_replicate 'a' 900 1200]
      rw [List.take_replicate, List.take_replicate]
      congr 1]
    rfl

/-- Claim C9 counterexample: the 4-character plain text `"abcd"` with
`chunkSize = 5`, `overlap = 3` is strictly shorter than the target size, yet
chunking yields TWO chunks (`"abcd"` and `"cd"`), because the loop keeps
running while `i = size - overlap < len(text)`. -/
theorem claim9_counterexample :
    RagTs.chunkText ("abcd".toList) 5 3 = ["abcd".toList, "cd".toList] ∧
    ((RagTs.chunkText ("abcd".toList) 5 3 = ["abcd".toList]) ↔ False) := by
  constructor
  · decide
  · decide

/-- Claim C9 (amended): a PLAIN text (not code-like, not markdown-like) of
positive length at most `chunkSize - overlap` yields exactly one chunk equal
to the whole text.  (Texts with `chunkSize - overlap < len < chunkSize`
yield more than one chunk, as the counterexample shows.) -/
theorem claim9_short_text_single_chunk (text : List Char) (chunkSize overlap : Nat)
    (hc : (text.contains '{' && text.contains '}') = false)
    (hm : (hasSub text ("# ".toList) || hasSub text ("## ".toList)) = false)
    (hlen : 0 < text.length) (hov : overlap < chunkSize)
    (hfit : text.length ≤ chunkSize - overlap) :
    RagTs.chunkText text chunkSize overlap = [text] := by
  unfold RagTs.chunkText
  simp only [hc, hm, Bool.false_eq_true, if_false]
  rw [slidingChunks_eq _ _ _ (by omega : 0 < chunkSize - overlap)]
  rw [ceilDiv_eq_one _ _ hlen hfit]
  rw [show List.range 1 = [0] from by decide]
  simp only [List.map_cons, List.map_nil]
  unfold sliceLen
  rw [Nat.zero_mul, List.drop_zero, List.take_of_length_le (by omega)]

/-- Claim C9 witness: a 2-character plain text with chunk size 5 and
overlap 3. -/
theorem claim9_witness : RagTs.chunkText ("ab".toList) 5 3 = ["ab".toList] :=
  claim9_short_text_single_chunk ("ab".toList) 5 3 (by decide) (by decide)
    (by decide) (by decide) (by decide)

/-- Claim C10: when no vector store object was created in this process,
`RAGManager.removeDocument` and `RAGManager.removeAllDocuments` throw
`"Vector store not initialized"` immediately — they never construct a store
lazily — and the whole manager state, the on-disk table included, is left
unchanged. -/
theorem claim10_remove_requires_initialized_store (rm : RagManagerState) (p : String)
    (h : rm.vectorStore = none) :
    ragRemoveDocument rm p = (some "Vector store not initialized", rm) ∧
    ragRemoveAllDocuments rm = (some "Vector store not initialized", rm) := by
  unfold ragRemoveDocument ragRemoveAllDocuments
  rw [h]
  exact ⟨rfl, rfl⟩

/-- Claim C10 witness: a fresh manager in a process where a persisted store
exists on disk. -/
theorem claim10_witness :
    ragRemoveDocument { vectorStore := none, disk := [(docA, [1, 0])] } "a" =
      (some "Vector store not initialized",
        { vectorStore := none, disk := [(docA, [1, 0])] }) ∧
    ragRemoveAllDocuments { vectorStore := none, disk := [(docA, [1, 0])] } =
      (some "Vector store not initialized",
        { vectorStore := none, disk := [(docA, [1, 0])] }) :=
  claim10_remove_requires_initialized_store
    { vectorStore := none, disk := [(docA, [1, 0])] } "a" rfl

end Spec2Proof
